import Mathlib

/-!
Shallow embedding of `commands/print.go` from PuerkitoBio/boom: the result
collector (`Report.finalize`) and the reporter (`Report.print` with its
helpers `printCSV`, `printLatencies`, `printHistogram`, `printStatusCodes`,
`printErrors`).  Go `float64` values are modelled as rationals; `float64`
division is modelled as `Option ℚ`, with `none` standing for the non-finite
values (`+Inf`/`NaN`) produced by dividing by zero.  Go maps accumulated by
`m[k]++` are modelled as association lists in insertion order.
-/

namespace Boom

/-- One per-request outcome, mirroring the `result` struct consumed from the
channel: `duration` in seconds, `statusCode`, `contentLength`, optional
error text (`res.err.Error()`). -/
structure RequestResult where
  duration : ℚ
  statusCode : ℤ
  contentLength : ℤ
  err : Option String
deriving DecidableEq, Repr

/-- Increment `m[k]++` on a Go map, modelled on an association list kept in
first-seen order. -/
def bump {α : Type} [DecidableEq α] (m : List (α × ℕ)) (k : α) : List (α × ℕ) :=
  match m with
  | [] => [(k, 1)]
  | (q, n) :: rest => if q = k then (q, n + 1) :: rest else (q, n) :: bump rest k

/-- Division of `float64` values: `none` models the non-finite result
(`+Inf` or `NaN`) that Go produces when the divisor is zero. -/
def fdiv (a b : ℚ) : Option ℚ := if b = 0 then none else some (a / b)

/-- The aggregate fields of the Go `Report` struct that `finalize` fills in
(the channel itself and the output mode are kept outside the state). -/
structure Report where
  AvgTotal : ℚ := 0
  RPS : Option ℚ := none
  SuccessRPS : Option ℚ := none
  Average : Option ℚ := none
  Total : ℚ := 0
  StatusCodeDist : List (ℤ × ℕ) := []
  Lats : List ℚ := []
  Errors : List (String × ℕ) := []
  SizeTotal : ℤ := 0
  successCnt : ℕ := 0
deriving DecidableEq, Repr

/-- Folding one result into the aggregate state: the body of the `select`
loop in `Report.finalize`. -/
def foldResult (r : Report) (res : RequestResult) : Report :=
  match res.err with
  | some e => { r with Errors := bump r.Errors e }
  | none =>
    { r with
      Lats := r.Lats ++ [res.duration]
      AvgTotal := r.AvgTotal + res.duration
      StatusCodeDist := bump r.StatusCodeDist res.statusCode
      SizeTotal := if res.contentLength > 0 then r.SizeTotal + res.contentLength
                   else r.SizeTotal
      successCnt := if 200 ≤ res.statusCode ∧ res.statusCode < 300 then
                      r.successCnt + 1
                    else r.successCnt }

/-- Draining the channel: the results arrive in the given order and each is
folded by the `select` loop body. -/
def drain (rs : List RequestResult) : Report :=
  rs.foldl foldResult {}

/-- Model of `Report.finalize`: drain the channel, then fill in `Total`, `RPS`,
`SuccessRPS` and `Average` (each division modelled by `fdiv`). -/
def finalize (rs : List RequestResult) (total : ℚ) : Report :=
  let r := drain rs
  { r with
    Total := total
    RPS := fdiv (r.Lats.length : ℚ) total
    SuccessRPS := fdiv (r.successCnt : ℚ) total
    Average := fdiv r.AvgTotal (r.Lats.length : ℚ) }

/-- Sum of the counts stored in an association-list map. -/
def mapTotal {α : Type} (m : List (α × ℕ)) : ℕ := (m.map Prod.snd).sum

theorem mapTotal_bump {α : Type} [DecidableEq α] (m : List (α × ℕ)) (k : α) :
    mapTotal (bump m k) = mapTotal m + 1 := by
  induction m with
  | nil => simp [bump, mapTotal]
  | cons p rest ih =>
    obtain ⟨q, n⟩ := p
    by_cases h : q = k <;> simp [bump, h, mapTotal] at ih ⊢ <;> omega

theorem bump_keys {α : Type} [DecidableEq α] (m : List (α × ℕ)) (k : α) :
    (bump m k).map Prod.fst =
      if k ∈ m.map Prod.fst then m.map Prod.fst else m.map Prod.fst ++ [k] := by
  induction m with
  | nil => simp [bump]
  | cons p rest ih =>
    obtain ⟨q, n⟩ := p
    by_cases h : q = k
    · subst h; simp [bump]
    · simp only [bump, if_neg h, List.map_cons, List.mem_cons]
      rw [ih]
      by_cases hk : k ∈ rest.map Prod.fst
      · simp [hk, Ne.symm h]
      · simp [hk, Ne.symm h]

theorem bump_keys_nodup {α : Type} [DecidableEq α] (m : List (α × ℕ)) (k : α)
    (h : (m.map Prod.fst).Nodup) : ((bump m k).map Prod.fst).Nodup := by
  rw [bump_keys]
  by_cases hk : k ∈ m.map Prod.fst
  · simpa [hk] using h
  · simpa [hk, List.nodup_append, hk] using h

/-- One emitted line of report output, one constructor per `fmt.Printf` in the
reporter; each carries the data that the format verbs interpolate.  CSV lines
are kept as rendered strings because their exact formatting is part of the
machine-readable contract. -/
inductive Line where
  | summaryHeader
  | totalLine (v : ℚ)
  | slowestLine (v : ℚ)
  | fastestLine (v : ℚ)
  | averageLine (v : Option ℚ)
  | rpsLine (v : Option ℚ)
  | sizeTotalLine (n : ℤ)
  | sizePerReq (n : ℤ)
  | statusHeader
  | statusLine (code : ℤ) (num : ℕ)
  | histHeader
  | histLine (edge : ℚ) (count : ℕ) (barLen : ℕ)
  | latHeader
  | latLine (pctl : ℕ) (v : ℚ)
  | errHeader
  | errLine (num : ℕ) (desc : String)
  | csvLine (s : String)
deriving DecidableEq, Repr

/-- Pad a digit string to four characters with leading zeros. -/
def zeroPad4 (s : String) : String :=
  String.mk (List.replicate (4 - s.length) '0') ++ s

/-- Format verb `%4.4f` applied to a nonnegative value: round to the nearest 1/10000 and
print four fractional digits (the minimum width 4 never pads, since precision
4 already yields at least six characters). -/
def fmt4 (q : ℚ) : String :=
  let n : ℤ := ⌊q * 10000 + 1 / 2⌋
  toString (n / 10000) ++ "." ++ zeroPad4 (toString (n % 10000).toNat)

/-- Model of `Report.printCSV`: one `fmt.Printf("%v,%4.4f\n", i+1, val)` per stored
latency, in stored order. -/
def csvLines (lats : List ℚ) : List Line :=
  (List.range lats.length).map (fun i =>
    Line.csvLine (toString (i + 1) ++ "," ++ fmt4 (lats.getD i 0)))

/-- The fixed percentile targets of `Report.printLatencies`. -/
def pctls : List ℕ := [10, 25, 50, 75, 90, 95, 99]

/-- One iteration of the recording loop in `Report.printLatencies`: at array
index `i`, if the next target `j` is still unsatisfied and
`i * 100 / len(lats) >= pctls[j]`, record `lats[i]` for it and advance `j`. -/
def latStep (lats : List ℚ) (st : List ℚ × ℕ) (i : ℕ) : List ℚ × ℕ :=
  if st.2 < pctls.length then
    if pctls.getD st.2 0 ≤ i * 100 / lats.length then
      (st.1.set st.2 (lats.getD i 0), st.2 + 1)
    else st
  else st

/-- The recording pass of `Report.printLatencies`: `data` starts as seven
zeros; the loop walks `i` over the latency indices (exiting early once every
target is satisfied changes nothing, since `latStep` is then the identity). -/
def latData (lats : List ℚ) : List ℚ × ℕ :=
  (List.range lats.length).foldl (latStep lats) (List.replicate pctls.length 0, 0)

/-- Model of `Report.printLatencies`: header, then one line per target whose recorded
value is strictly positive. -/
def latencyLines (lats : List ℚ) : List Line :=
  Line.latHeader ::
    (List.range pctls.length).filterMap (fun i =>
      if 0 < (latData lats).1.getD i 0 then
        some (Line.latLine (pctls.getD i 0) ((latData lats).1.getD i 0))
      else none)

/-- The bucket edges of `Report.printHistogram`: `bc = 10` interior edges
`Fastest + i * (Slowest - Fastest) / 10`, then the final edge forced to
`Slowest`. -/
def histBuckets (fastest slowest : ℚ) : List ℚ :=
  ((List.range 10).map (fun i : ℕ => fastest + (slowest - fastest) / 10 * (i : ℚ))) ++
    [slowest]

/-- The counting loop of `Report.printHistogram`, with explicit fuel: each Go
iteration either consumes the next sample into bucket `bi` (when it does not
exceed `buckets[bi]`) or advances `bi`; when neither branch applies the Go
`for` spins forever, modelled by the fuel running out (`none`). -/
def histLoop (buckets : List ℚ) : ℕ → List ℚ → ℕ → List ℕ → Option (List ℕ)
  | 0, _, _, _ => none
  | _ + 1, [], _, counts => some counts
  | fuel + 1, x :: rest, bi, counts =>
    if x ≤ buckets.getD bi 0 then
      histLoop buckets fuel rest bi (counts.set bi (counts.getD bi 0 + 1))
    else if bi < buckets.length - 1 then
      histLoop buckets fuel (x :: rest) (bi + 1) counts
    else
      histLoop buckets fuel (x :: rest) bi counts

/-- The bucket counts of `Report.printHistogram`, run with enough fuel for
one Go iteration per sample plus one per cursor advance. -/
def histCounts (fastest slowest : ℚ) (lats : List ℚ) : Option (List ℕ) :=
  histLoop (histBuckets fastest slowest)
    (lats.length + (histBuckets fastest slowest).length) lats 0
    (List.replicate (histBuckets fastest slowest).length 0)

/-- Output of `Report.printHistogram`: header, then one line per bucket edge
with its count and the normalized bar length `count * 40 / max` (0 when `max`
is 0).  The running `max` kept by the Go loop equals the maximum of the final
counts, since the counters only ever increase.  If the counting loop never
terminates, Go prints nothing (`[]`). -/
def histLines (fastest slowest : ℚ) (lats : List ℚ) : List Line :=
  match histCounts fastest slowest lats with
  | none => []
  | some counts =>
    Line.histHeader ::
      (List.range (histBuckets fastest slowest).length).map (fun i =>
        Line.histLine ((histBuckets fastest slowest).getD i 0) (counts.getD i 0)
          (if 0 < counts.foldr Nat.max 0 then
            counts.getD i 0 * 40 / counts.foldr Nat.max 0
          else 0))

/-- Model of `sort.Float64s`: ascending sort of the stored latencies. -/
def sortLats (lats : List ℚ) : List ℚ := List.insertionSort (· ≤ ·) lats

/-- Model of `Report.printStatusCodes`: header, then one line per observed status
code (map order modelled as insertion order). -/
def statusLines (dist : List (ℤ × ℕ)) : List Line :=
  Line.statusHeader :: dist.map (fun p => Line.statusLine p.1 p.2)

/-- Model of `Report.printErrors`: header, then `[count] description` per distinct
error description (map order modelled as insertion order). -/
def errLines (errs : List (String × ℕ)) : List Line :=
  Line.errHeader :: errs.map (fun p => Line.errLine p.2 p.1)

/-- The summary block of `Report.print`: the five fixed lines, then the two
size lines only when `SizeTotal > 0` (`Response Size per Request` is the
truncating integer division by `len(Lats)`). -/
def summaryLines (r : Report) (fastest slowest : ℚ) : List Line :=
  [Line.summaryHeader, Line.totalLine r.Total, Line.slowestLine slowest,
   Line.fastestLine fastest, Line.averageLine r.Average, Line.rpsLine r.RPS] ++
  (if 0 < r.SizeTotal then
    [Line.sizeTotalLine r.SizeTotal,
     Line.sizePerReq (r.SizeTotal / (r.Lats.length : ℤ))]
  else [])

/-- Model of `Report.print`: sort the latencies; in csv mode emit only the CSV lines;
otherwise, when there is at least one latency, set `Fastest`/`Slowest` from
the sorted ends and (unless quiet) emit summary, status codes, histogram and
percentiles; finally emit the error distribution when any error occurred. -/
def printLines (r : Report) (output : String) : List Line :=
  if output = "csv" then csvLines (sortLats r.Lats)
  else
    (if 0 < (sortLats r.Lats).length then
      (if output ≠ "quiet" then
        summaryLines r ((sortLats r.Lats).headD 0)
            ((sortLats r.Lats).getLastD 0) ++
          statusLines r.StatusCodeDist ++
          histLines ((sortLats r.Lats).headD 0) ((sortLats r.Lats).getLastD 0)
            (sortLats r.Lats) ++
          latencyLines (sortLats r.Lats)
      else [])
    else []) ++
    (if r.Errors ≠ [] then errLines r.Errors else [])

/-- Predicate: a result carries no error (the success branch of the fold). -/
def isSuccess (res : RequestResult) : Bool := res.err = none

theorem drain_lats_length_aux (rs : List RequestResult) (r : Report) :
    (rs.foldl foldResult r).Lats.length =
      r.Lats.length + rs.countP isSuccess := by
  induction rs generalizing r with
  | nil => simp
  | cons res rest ih =>
    rw [List.foldl_cons, ih]
    cases h : res.err with
    | some e => simp [foldResult, h, isSuccess, List.countP_cons]
    | none => simp [foldResult, h, isSuccess, List.countP_cons]; omega

theorem drain_errors_total_aux (rs : List RequestResult) (r : Report) :
    mapTotal (rs.foldl foldResult r).Errors =
      mapTotal r.Errors + rs.countP (fun res => !(isSuccess res)) := by
  induction rs generalizing r with
  | nil => simp
  | cons res rest ih =>
    rw [List.foldl_cons, ih]
    cases h : res.err with
    | some e =>
      simp [foldResult, h, isSuccess, List.countP_cons, mapTotal_bump]; omega
    | none => simp [foldResult, h, isSuccess, List.countP_cons]

theorem drain_successCnt_aux (rs : List RequestResult) (r : Report) :
    (rs.foldl foldResult r).successCnt =
      r.successCnt +
        rs.countP (fun res =>
          isSuccess res ∧ 200 ≤ res.statusCode ∧ res.statusCode < 300) := by
  induction rs generalizing r with
  | nil => simp
  | cons res rest ih =>
    rw [List.foldl_cons, ih]
    cases h : res.err with
    | some e => simp [foldResult, h, isSuccess, List.countP_cons]
    | none =>
      by_cases hs : 200 ≤ res.statusCode ∧ res.statusCode < 300 <;>
        simp [foldResult, h, isSuccess, List.countP_cons, hs] <;> omega

theorem finalize_lats (rs : List RequestResult) (total : ℚ) :
    (finalize rs total).Lats = (drain rs).Lats := rfl

theorem finalize_successCnt (rs : List RequestResult) (total : ℚ) :
    (finalize rs total).successCnt = (drain rs).successCnt := rfl

theorem finalize_errors (rs : List RequestResult) (total : ℚ) :
    (finalize rs total).Errors = (drain rs).Errors := rfl

/-- C7: after the drain, `Lats` holds one entry per error-free result, and the
count is invariant under permuting the arrival order of the results. -/
theorem drain_lats_length_eq_success_count (rs rs2 : List RequestResult)
    (hperm : rs.Perm rs2) :
    (drain rs).Lats.length = rs.countP isSuccess ∧
    (drain rs2).Lats.length = (drain rs).Lats.length := by
  have h1 : (drain rs).Lats.length = rs.countP isSuccess := by
    simpa [drain] using drain_lats_length_aux rs {}
  have h2 : (drain rs2).Lats.length = rs2.countP isSuccess := by
    simpa [drain] using drain_lats_length_aux rs2 {}
  exact ⟨h1, by rw [h1, h2, hperm.countP_eq]⟩

/-- C7 witness: two permutations of a three-result stream (two successes, one
error) both produce two latency samples. -/
theorem drain_lats_length_eq_success_count_witness :
    (drain [⟨1, 200, 5, none⟩, ⟨2, 0, 0, some "timeout"⟩, ⟨3, 404, 7, none⟩]).Lats.length =
      List.countP isSuccess
        [⟨1, 200, 5, none⟩, ⟨2, 0, 0, some "timeout"⟩, ⟨3, 404, 7, none⟩] ∧
    (drain [⟨2, 0, 0, some "timeout"⟩, ⟨3, 404, 7, none⟩, ⟨1, 200, 5, none⟩]).Lats.length =
      (drain [⟨1, 200, 5, none⟩, ⟨2, 0, 0, some "timeout"⟩, ⟨3, 404, 7, none⟩]).Lats.length :=
  drain_lats_length_eq_success_count
    [⟨1, 200, 5, none⟩, ⟨2, 0, 0, some "timeout"⟩, ⟨3, 404, 7, none⟩]
    [⟨2, 0, 0, some "timeout"⟩, ⟨3, 404, 7, none⟩, ⟨1, 200, 5, none⟩]
    (by decide)

/-- C2 counterexample: a single error-free result with status 404 is counted
neither in `successCnt` nor in the error map, so
`successCnt + Σ errorCounts = 0 ≠ 1 = total results processed`. -/
theorem successCnt_plus_errors_cex :
    ¬ ((finalize [⟨1, 404, 0, none⟩] 1).successCnt +
        mapTotal (finalize [⟨1, 404, 0, none⟩] 1).Errors =
        ([⟨1, 404, 0, none⟩] : List RequestResult).length) := by
  decide

/-- C2 (amended): when every error-free result in the stream has a status code
in [200, 300), `successCnt` plus the summed error counts equals the total
number of results processed. -/
theorem successCnt_plus_errors_eq_total (rs : List RequestResult) (total : ℚ)
    (h : ∀ res ∈ rs, res.err = none →
      200 ≤ res.statusCode ∧ res.statusCode < 300) :
    (finalize rs total).successCnt + mapTotal (finalize rs total).Errors =
      rs.length := by
  rw [finalize_successCnt, finalize_errors]
  have hs : (drain rs).successCnt =
      rs.countP (fun res =>
        isSuccess res ∧ 200 ≤ res.statusCode ∧ res.statusCode < 300) := by
    simpa [drain] using drain_successCnt_aux rs {}
  have he : mapTotal (drain rs).Errors =
      rs.countP (fun res => !(isSuccess res)) := by
    simpa [drain, mapTotal] using drain_errors_total_aux rs {}
  rw [hs, he]
  have hcong : rs.countP (fun res =>
      isSuccess res ∧ 200 ≤ res.statusCode ∧ res.statusCode < 300) =
      rs.countP isSuccess := by
    refine List.countP_congr (fun res hres => ?_)
    by_cases hsucc : res.err = none
    · have hok := h res hres hsucc
      simp [isSuccess, hsucc, hok.1, hok.2]
    · simp [isSuccess, hsucc]
  rw [hcong]
  have hnot : rs.countP (fun res => !(isSuccess res)) =
      rs.countP (fun a => ¬ isSuccess a) :=
    List.countP_congr (fun x hx => by simp)
  have := List.length_eq_countP_add_countP (p := isSuccess) rs
  omega

/-- C2 witness: one 2xx success and one error; `1 + 1 = 2` results. -/
theorem successCnt_plus_errors_eq_total_witness :
    (finalize [⟨1, 200, 5, none⟩, ⟨2, 0, 0, some "timeout"⟩] 1).successCnt +
      mapTotal (finalize [⟨1, 200, 5, none⟩, ⟨2, 0, 0, some "timeout"⟩] 1).Errors =
      ([⟨1, 200, 5, none⟩, ⟨2, 0, 0, some "timeout"⟩] : List RequestResult).length :=
  successCnt_plus_errors_eq_total
    [⟨1, 200, 5, none⟩, ⟨2, 0, 0, some "timeout"⟩] 1 (by decide)

/-- C1 counterexample: on the sorted list [0.1, 0.2, 0.3, 0.4, 0.5] the
50th-percentile slot (index 2 of `pctls`) does not hold 0.3, and no
`50% in 0.3000` line is printed. -/
theorem latency_p50_cex :
    (latData [1/10, 2/10, 3/10, 4/10, 5/10]).1.getD 2 0 ≠ 3/10 ∧
    Line.latLine 50 (3/10) ∉ latencyLines [1/10, 2/10, 3/10, 4/10, 5/10] := by
  norm_num [latencyLines, latData, latStep, pctls, List.range_succ]
  decide

/-- C1 (amended): on [0.1, 0.2, 0.3, 0.4, 0.5] the nearest-rank pass records
0.4 for the 50th percentile (at i = 3, current = 60 ≥ 50), and the printed
line is `50% in 0.4000`. -/
theorem latency_p50_eq :
    (latData [1/10, 2/10, 3/10, 4/10, 5/10]).1.getD 2 0 = 2/5 ∧
    Line.latLine 50 (2/5) ∈ latencyLines [1/10, 2/10, 3/10, 4/10, 5/10] := by
  norm_num [latencyLines, latData, latStep, pctls, List.range_succ]

theorem pctls_getD_inj :
    ∀ i, i < pctls.length → ∀ k, k < pctls.length →
      pctls.getD i 0 = pctls.getD k 0 → i = k := by
  decide

/-- C8: a percentile target whose `data` slot is zero — whether a zero value
was recorded for it or it was never reached — produces no output line. -/
theorem latLine_zero_omitted (lats : List ℚ) (k : ℕ) (hk : k < pctls.length)
    (h0 : (latData lats).1.getD k 0 = 0) (v : ℚ) :
    Line.latLine (pctls.getD k 0) v ∉ latencyLines lats := by
  intro hmem
  simp only [latencyLines, List.mem_cons] at hmem
  rcases hmem with h | h
  · exact Line.noConfusion h
  · rcases List.mem_filterMap.mp h with ⟨i, hi, hsome⟩
    have hi7 : i < pctls.length := List.mem_range.mp hi
    by_cases hpos : 0 < (latData lats).1.getD i 0
    · rw [if_pos hpos] at hsome
      simp only [Option.some.injEq, Line.latLine.injEq] at hsome
      have hik : i = k := pctls_getD_inj i hi7 k hk hsome.1
      rw [hik, h0] at hpos
      exact lt_irrefl 0 hpos
    · rw [if_neg hpos] at hsome
      exact Option.noConfusion hsome

/-- C8 witness: with five zero-duration samples, the pass records 0 for the
50% target (j advances past it), yet no 50% line is printed. -/
theorem latLine_zero_omitted_witness :
    (latData [0, 0, 0, 0, 0]).1.getD 2 0 = 0 ∧
    Line.latLine (pctls.getD 2 0) (3/10) ∉ latencyLines [0, 0, 0, 0, 0] :=
  ⟨by decide, latLine_zero_omitted [0, 0, 0, 0, 0] 2 (by decide) (by decide) (3/10)⟩

theorem current_le_98 (i N : ℕ) (hi : i < N) (hN : N < 100) :
    i * 100 / N ≤ 98 := by
  have hN0 : 0 < N := by omega
  have h1 : i * 100 < 99 * N := by omega
  have h2 : i * 100 / N < 99 := (Nat.div_lt_iff_lt_mul hN0).mpr (by omega)
  omega

theorem latStep_no99 (lats : List ℚ) (i : ℕ)
    (hi : i * 100 / lats.length ≤ 98) (st : List ℚ × ℕ)
    (h1 : st.1.getD 6 0 = 0) (h2 : st.2 ≤ 6) :
    (latStep lats st i).1.getD 6 0 = 0 ∧ (latStep lats st i).2 ≤ 6 := by
  unfold latStep
  by_cases hj : st.2 < pctls.length
  · rw [if_pos hj]
    by_cases hcur : pctls.getD st.2 0 ≤ i * 100 / lats.length
    · rw [if_pos hcur]
      have hj6 : st.2 ≠ 6 := by
        intro he
        rw [he] at hcur
        have h99 : (99 : ℕ) ≤ i * 100 / lats.length := by simpa using hcur
        omega
      refine ⟨?_, by omega⟩
      simp only [List.getD_eq_getElem?_getD, List.getElem?_set_ne hj6]
      simpa only [List.getD_eq_getElem?_getD] using h1
    · rw [if_neg hcur]
      exact ⟨h1, h2⟩
  · rw [if_neg hj]
    exact ⟨h1, h2⟩

theorem latFold_no99 (lats : List ℚ) (idxs : List ℕ)
    (hidx : ∀ i ∈ idxs, i * 100 / lats.length ≤ 98) :
    ∀ st : List ℚ × ℕ, st.1.getD 6 0 = 0 → st.2 ≤ 6 →
      (idxs.foldl (latStep lats) st).1.getD 6 0 = 0 ∧
      (idxs.foldl (latStep lats) st).2 ≤ 6 := by
  induction idxs with
  | nil => exact fun st h1 h2 => ⟨h1, h2⟩
  | cons i rest ih =>
    intro st h1 h2
    rw [List.foldl_cons]
    have hstep := latStep_no99 lats i (hidx i (List.mem_cons_self i rest)) st h1 h2
    exact ih (fun a ha => hidx a (List.mem_cons_of_mem i ha)) _ hstep.1 hstep.2

/-- C9: for 1 ≤ N < 100 samples, `floor(i*100/N) ≤ 98` for every index, so
the 99th-percentile slot keeps its initial zero and no 99% line is printed. -/
theorem p99_absent (lats : List ℚ) (h1 : 1 ≤ lats.length)
    (h2 : lats.length < 100) :
    (latData lats).1.getD 6 0 = 0 ∧
    ∀ v : ℚ, Line.latLine 99 v ∉ latencyLines lats := by
  have hmain : (latData lats).1.getD 6 0 = 0 := by
    have hfold := latFold_no99 lats (List.range lats.length)
      (fun i hi => current_le_98 i lats.length (List.mem_range.mp hi) h2)
      (List.replicate pctls.length 0, 0) (by decide) (by decide)
    simpa only [latData] using hfold.1
  refine ⟨hmain, fun v hmem => ?_⟩
  simp only [latencyLines, List.mem_cons] at hmem
  rcases hmem with h | h
  · exact Line.noConfusion h
  · rcases List.mem_filterMap.mp h with ⟨i, hi, hsome⟩
    have hi7 : i < pctls.length := List.mem_range.mp hi
    by_cases hpos : 0 < (latData lats).1.getD i 0
    · rw [if_pos hpos] at hsome
      simp only [Option.some.injEq, Line.latLine.injEq] at hsome
      have hi6 : i = 6 := by
        have hall : ∀ j, j < pctls.length → pctls.getD j 0 = 99 → j = 6 := by
          decide
        exact hall i hi7 hsome.1
      rw [hi6, hmain] at hpos
      exact lt_irrefl 0 hpos
    · rw [if_neg hpos] at hsome
      exact Option.noConfusion hsome

/-- C9 witness: five samples, so the 99% slot is zero and no 99% line
appears. -/
theorem p99_absent_witness :
    (latData [1/10, 2/10, 3/10, 4/10, 5/10]).1.getD 6 0 = 0 ∧
    Line.latLine 99 1 ∉ latencyLines [1/10, 2/10, 3/10, 4/10, 5/10] :=
  ⟨(p99_absent [1/10, 2/10, 3/10, 4/10, 5/10] (by decide) (by decide)).1,
   (p99_absent [1/10, 2/10, 3/10, 4/10, 5/10] (by decide) (by decide)).2 1⟩

theorem sum_set_getD (counts : List ℕ) (bi : ℕ) (h : bi < counts.length) :
    (counts.set bi (counts.getD bi 0 + 1)).sum = counts.sum + 1 := by
  induction counts generalizing bi with
  | nil => simp at h
  | cons a t ih =>
    cases bi with
    | zero => simp [List.getD_cons_zero, List.sum_cons]; omega
    | succ n =>
      simp only [List.set_cons_succ, List.getD_cons_succ, List.sum_cons]
      have := ih n (by simpa using h)
      omega

theorem sorted_mem_le_getLastD (l : List ℚ) (hs : l.Sorted (· ≤ ·)) :
    ∀ x ∈ l, x ≤ l.getLastD 0 := by
  induction l with
  | nil => intro x hx; cases hx
  | cons a t ih =>
    intro x hx
    rw [List.getLastD_cons]
    obtain ⟨hab, hst⟩ := List.sorted_cons.mp hs
    cases t with
    | nil =>
      rcases List.mem_cons.mp hx with rfl | h2
      · simp [List.getLastD]
      · cases h2
    | cons b t2 =>
      have hdefault : (b :: t2).getLastD a = (b :: t2).getLastD 0 := by
        rw [List.getLastD_cons, List.getLastD_cons]
      rcases List.mem_cons.mp hx with rfl | h2
      · rw [hdefault]
        exact le_trans (hab b (List.mem_cons_self b t2))
          (ih hst b (List.mem_cons_self b t2))
      · rw [hdefault]
        exact ih hst x h2

theorem getD_length_sub_one (l : List ℚ) :
    l.getD (l.length - 1) 0 = l.getLastD 0 := by
  rw [List.getD_eq_getElem?_getD, List.getLastD_eq_getLast?,
    List.getLast?_eq_getElem?]

theorem histBuckets_getLastD (fastest slowest : ℚ) :
    (histBuckets fastest slowest).getLastD 0 = slowest := by
  simpa [histBuckets] using
    List.getLastD_concat 0 slowest
      ((List.range 10).map (fun i : ℕ => fastest + (slowest - fastest) / 10 * (i : ℚ)))

theorem histBuckets_length (fastest slowest : ℚ) :
    (histBuckets fastest slowest).length = 11 := by
  simp [histBuckets]

theorem histLoop_spec (buckets : List ℚ) :
    ∀ (fuel : ℕ) (lats : List ℚ) (bi : ℕ) (counts : List ℕ),
      (∀ x ∈ lats, x ≤ buckets.getD (buckets.length - 1) 0) →
      bi < buckets.length →
      counts.length = buckets.length →
      lats.length + (buckets.length - bi) ≤ fuel →
      ∃ counts2, histLoop buckets fuel lats bi counts = some counts2 ∧
        counts2.sum = counts.sum + lats.length := by
  intro fuel
  induction fuel with
  | zero =>
    intro lats bi counts hle hbi hlen hfuel
    exfalso; omega
  | succ f ih =>
    intro lats bi counts hle hbi hlen hfuel
    cases lats with
    | nil => exact ⟨counts, rfl, by simp⟩
    | cons x rest =>
      by_cases hx : x ≤ buckets.getD bi 0
      · have hbi2 : bi < counts.length := by omega
        obtain ⟨c2, hc2, hsum⟩ := ih rest bi
          (counts.set bi (counts.getD bi 0 + 1))
          (fun y hy => hle y (List.mem_cons_of_mem x hy)) hbi
          (by simp [hlen]) (by simp at hfuel; omega)
        refine ⟨c2, ?_, ?_⟩
        · simp only [histLoop, if_pos hx]
          exact hc2
        · rw [hsum, sum_set_getD counts bi hbi2]
          simp only [List.length_cons]
          omega
      · by_cases hlt : bi < buckets.length - 1
        · obtain ⟨c2, hc2, hsum⟩ := ih (x :: rest) (bi + 1) counts hle
            (by omega) hlen (by simp at hfuel ⊢; omega)
          refine ⟨c2, ?_, hsum⟩
          simp only [histLoop, if_neg hx, if_pos hlt]
          exact hc2
        · exfalso
          have hxle := hle x (List.mem_cons_self x rest)
          have hbieq : bi = buckets.length - 1 := by omega
          rw [hbieq] at hx
          exact hx hxle

/-- C3: for a non-empty latency list, with `Fastest`/`Slowest` taken from the
sorted samples as `print` does, the histogram loop returns counts summing to
the number of samples. -/
theorem hist_counts_sum (lats : List ℚ) (h : lats ≠ []) :
    ∃ counts,
      histCounts ((sortLats lats).headD 0) ((sortLats lats).getLastD 0)
        (sortLats lats) = some counts ∧
      counts.sum = lats.length := by
  have hsorted : (sortLats lats).Sorted (· ≤ ·) :=
    List.sorted_insertionSort (· ≤ ·) lats
  have hlen : (sortLats lats).length = lats.length :=
    List.length_insertionSort (· ≤ ·) lats
  have hmem : ∀ x ∈ sortLats lats,
      x ≤ (histBuckets ((sortLats lats).headD 0)
            ((sortLats lats).getLastD 0)).getD
          ((histBuckets ((sortLats lats).headD 0)
            ((sortLats lats).getLastD 0)).length - 1) 0 := by
    intro x hx
    rw [getD_length_sub_one, histBuckets_getLastD]
    exact sorted_mem_le_getLastD (sortLats lats) hsorted x hx
  obtain ⟨c2, hc2, hsum⟩ := histLoop_spec
    (histBuckets ((sortLats lats).headD 0) ((sortLats lats).getLastD 0))
    ((sortLats lats).length +
      (histBuckets ((sortLats lats).headD 0)
        ((sortLats lats).getLastD 0)).length)
    (sortLats lats) 0
    (List.replicate (histBuckets ((sortLats lats).headD 0)
      ((sortLats lats).getLastD 0)).length 0)
    hmem (by rw [histBuckets_length]; omega) (by simp) (by omega)
  refine ⟨c2, ?_, ?_⟩
  · simpa [histCounts] using hc2
  · rw [hsum, hlen]
    simp

/-- C3 witness: two samples yield bucket counts summing to 2. -/
theorem hist_counts_sum_witness :
    ∃ counts,
      histCounts ((sortLats [1/10, 3/10]).headD 0)
        ((sortLats [1/10, 3/10]).getLastD 0) (sortLats [1/10, 3/10]) =
        some counts ∧
      counts.sum = ([1/10, 3/10] : List ℚ).length :=
  hist_counts_sum [1/10, 3/10] (by simp)

/-- C10: on a non-empty latency list, with `Slowest` equal to the largest
sorted sample, the counting loop finishes within one fuel unit per sample
plus one per bucket edge. -/
theorem hist_loop_terminates (lats : List ℚ) (h : lats ≠ []) :
    (histCounts ((sortLats lats).headD 0) ((sortLats lats).getLastD 0)
      (sortLats lats)).isSome := by
  obtain ⟨c2, hc2, -⟩ := hist_counts_sum lats h
  rw [hc2]
  rfl

/-- C10 witness: the loop terminates on a singleton sample list. -/
theorem hist_loop_terminates_witness :
    (histCounts ((sortLats [1/2]).headD 0) ((sortLats [1/2]).getLastD 0)
      (sortLats [1/2])).isSome :=
  hist_loop_terminates [1/2] (by simp)

theorem fdiv_zero (a : ℚ) : fdiv a 0 = none := by simp [fdiv]

/-- C5: with a total wall-clock duration of zero and one successful result,
`finalize` performs the divisions unguarded, so RPS and SuccessRPS are the
degenerate non-finite float value (modelled `none`) rather than zero or
omitted. -/
theorem rps_degenerate_at_zero_total :
    (finalize [⟨1/20, 200, 100, none⟩] 0).RPS = none ∧
    (finalize [⟨1/20, 200, 100, none⟩] 0).SuccessRPS = none := by
  constructor
  · simp [finalize, fdiv_zero]
  · simp [finalize, fdiv_zero]

theorem drain_errors_keys_nodup_aux (rs : List RequestResult) (r : Report)
    (h : (r.Errors.map Prod.fst).Nodup) :
    ((rs.foldl foldResult r).Errors.map Prod.fst).Nodup := by
  induction rs generalizing r with
  | nil => exact h
  | cons res rest ih =>
    rw [List.foldl_cons]
    apply ih
    cases hres : res.err with
    | some e => simpa [foldResult, hres] using bump_keys_nodup r.Errors e h
    | none => simpa [foldResult, hres] using h

/-- C6: an aggregate state with no latency samples and at least one error
prints, in default mode, exactly the error-distribution block — no summary,
status-code, histogram or percentile line — with one `[count] description`
line per distinct error description. -/
theorem errors_only_output (rs : List RequestResult) (total : ℚ)
    (h0 : (finalize rs total).Lats = [])
    (h1 : (finalize rs total).Errors ≠ []) :
    printLines (finalize rs total) "" =
      Line.errHeader ::
        (finalize rs total).Errors.map (fun p => Line.errLine p.2 p.1) ∧
    ((finalize rs total).Errors.map Prod.fst).Nodup := by
  refine ⟨?_, ?_⟩
  · simp [printLines, h0, h1, errLines, sortLats]
  · rw [finalize_errors]
    exact drain_errors_keys_nodup_aux rs {} (by simp)

/-- C6 witness: a single failed request yields exactly the error header and
one `[1] timeout` line. -/
theorem errors_only_output_witness :
    printLines (finalize [⟨1, 0, 0, some "timeout"⟩] 1) "" =
      Line.errHeader ::
        (finalize [⟨1, 0, 0, some "timeout"⟩] 1).Errors.map
          (fun p => Line.errLine p.2 p.1) ∧
    ((finalize [⟨1, 0, 0, some "timeout"⟩] 1).Errors.map Prod.fst).Nodup :=
  errors_only_output [⟨1, 0, 0, some "timeout"⟩] 1 (by decide) (by decide)

/-- C4: in csv mode the output is one line per latency sample and nothing
else (no header); the rendered sequence is the ascending sort of the stored
latencies, and line `i` (1-based) is `i,<i-th smallest latency to 4 decimal
places>`. -/
theorem csv_output (r : Report) :
    (printLines r "csv").length = r.Lats.length ∧
    (sortLats r.Lats).Sorted (· ≤ ·) ∧
    r.Lats.Perm (sortLats r.Lats) ∧
    ∀ i, i < r.Lats.length →
      (printLines r "csv").getD i (Line.csvLine "") =
        Line.csvLine (toString (i + 1) ++ "," ++
          fmt4 ((sortLats r.Lats).getD i 0)) := by
  have hcsv : printLines r "csv" = csvLines (sortLats r.Lats) := by
    simp [printLines]
  have hlen : (sortLats r.Lats).length = r.Lats.length :=
    List.length_insertionSort (fun a b => a ≤ b) r.Lats
  refine ⟨?_, List.sorted_insertionSort (fun a b => a ≤ b) r.Lats,
    (List.perm_insertionSort (fun a b => a ≤ b) r.Lats).symm, ?_⟩
  · rw [hcsv]
    simp [csvLines, hlen]
  · intro i hi
    rw [hcsv]
    simp only [csvLines, List.getD_eq_getElem?_getD, List.getElem?_map,
      List.getElem?_range (show i < (sortLats r.Lats).length by omega)]
    rfl

/-- C4 witness: a two-sample report has two CSV lines; line 1 carries the
smaller latency. -/
theorem csv_output_witness :
    (printLines { Lats := [3, 1] } "csv").length =
      ({ Lats := [3, 1] } : Report).Lats.length ∧
    (printLines { Lats := [3, 1] } "csv").getD 0 (Line.csvLine "") =
      Line.csvLine (toString (0 + 1) ++ "," ++
        fmt4 ((sortLats ({ Lats := [3, 1] } : Report).Lats).getD 0 0)) :=
  ⟨(csv_output { Lats := [3, 1] }).1,
   (csv_output { Lats := [3, 1] }).2.2.2 0 (by decide)⟩

end Boom
